import Mathlib

/-!
# Verification of the PPanGGOLiN hit-resolution and region-synteny engine

Shallow embedding of `ppanggolin/align/alignOnPang.py` and
`ppanggolin/figures/draw_spot.py`.

Python strings are modelled as lists of characters (`Str`), so that every
text operation used by the code (`str.replace`, `str.startswith`,
`str.split()`, `str.strip()`) can be given a structurally recursive,
kernel-computable definition that mirrors the Python semantics.
A parsed alignment record (one line of the aligner's tab-separated output,
already split on whitespace as the code does with `line.split()`) is a
`List Str` of fields.
-/

namespace PPanGGOLiN

/-- Python strings, modelled as character lists. -/
abbrev Str := List Char

/-- `leadsWith pat l` is true iff `pat` is an initial segment of `l`
(Python `l.startswith(pat)` at character level). -/
def leadsWith : Str → Str → Bool
  | [], _ => true
  | _ :: _, [] => false
  | p :: ps, c :: cs => p == c && leadsWith ps cs

/-- The internal marker `"ppanggolin_"` that the pipeline prepends to
pangenome sequence ids (`add="ppanggolin_"`). -/
def marker : Str := ['p', 'p', 'a', 'n', 'g', 'g', 'o', 'l', 'i', 'n', '_']

/-- One fuel-indexed step list of Python `s.replace("ppanggolin_", "")`:
scan left to right, remove every (non-overlapping) occurrence of `marker`.
Fuel is the length of the list; every step consumes at least one character,
so `stripFuel l.length l` computes the full replacement. -/
def stripFuel : Nat → Str → Str
  | 0, l => l
  | _ + 1, [] => []
  | n + 1, c :: cs =>
    if leadsWith marker (c :: cs) then stripFuel n (cs.drop 10)
    else c :: stripFuel n cs

/-- Embedding of `line_splitted[k].replace("ppanggolin_", "")`
(Python `str.replace` removes **every** occurrence of the substring,
scanning left to right). -/
def stripMarker (s : Str) : Str := stripFuel s.length s

/-- Query id of a record after marker removal: field 0 of the line,
with the marker substring removed (`alignOnPang.py:160`). -/
def queryOf (r : List Str) : Str := stripMarker (r.headD [])

/-- Target id of a record after marker removal: field 1 of the line,
with the marker substring removed (`alignOnPang.py:159`). -/
def targetOf (r : List Str) : Str := stripMarker ((r.drop 1).headD [])

/-- A pangenome gene family (`ppanggolin.geneFamily.GeneFamily`): the core
only reads its name and its partition label. -/
structure GeneFamily where
  name : Str
  named_partition : Str
deriving DecidableEq, Repr

/-- The pangenome lookup collaborator used by the hit resolver:
`geneToFamily g` models `pangenome.get_gene(g).family` and
`familyById f` models `pangenome.get_gene_family(f)` (both are data
accessors of the read-only pangenome object, supplied externally). -/
structure Pangenome where
  geneToFamily : Str → GeneFamily
  familyById : Str → GeneFamily

/-- One iteration of the record loop shared by
`map_input_gene_to_family_all_aln` (alignOnPang.py:156-168, with
`resolve = pangenome.get_gene(·).family`) and
`map_input_gene_to_family_rep_aln` (alignOnPang.py:191-203, with
`resolve = pangenome.get_gene_family`).  The state is the pair
(`seq2pang` as an insertion-ordered association list, cleaned output
records written so far).  A line with fewer than two fields makes the
Python code raise `IndexError`; this is modelled by `none`. -/
def runAlnAux (resolve : Str → GeneFamily) :
    List (List Str) → List (Str × GeneFamily) × List (List Str) →
    Option (List (Str × GeneFamily) × List (List Str))
  | [], st => some st
  | r :: rest, st =>
    match r with
    | f0 :: f1 :: tail =>
      let q := stripMarker f0
      let t := stripMarker f1
      let out := st.2 ++ [q :: t :: tail]
      let m :=
        match st.1.lookup q with
        | some _ => st.1
        | none => st.1 ++ [(q, resolve t)]
      runAlnAux resolve rest (m, out)
    | _ => none

/-- Read a stream of alignment records with a given target-resolution
function, producing the sequence→family map and the cleaned table. -/
def runAln (resolve : Str → GeneFamily) (records : List (List Str)) :
    Option (List (Str × GeneFamily) × List (List Str)) :=
  runAlnAux resolve records ([], [])

/-- `map_input_gene_to_family_all_aln` (alignOnPang.py:138-170): alignment
was made against all genes, so field 1 is a gene id resolved through
`pangenome.get_gene(gene_id).family`. -/
def map_input_gene_to_family_all_aln (pg : Pangenome)
    (records : List (List Str)) :
    Option (List (Str × GeneFamily) × List (List Str)) :=
  runAln pg.geneToFamily records

/-- `map_input_gene_to_family_rep_aln` (alignOnPang.py:173-205): alignment
was made against family representatives, so field 1 is a family id
resolved through `pangenome.get_gene_family`. -/
def map_input_gene_to_family_rep_aln (pg : Pangenome)
    (records : List (List Str)) :
    Option (List (Str × GeneFamily) × List (List Str)) :=
  runAln pg.familyById records

/-- The specification's reading of the hit-resolution contract: the entry
for a query id `q` is the family resolved from the target id of the first
record (in stream order) whose query id is `q`.  Stated from the spec's
words, to be compared with the map `runAln` actually builds. -/
def firstHit (resolve : Str → GeneFamily) (records : List (List Str))
    (q : Str) : Option GeneFamily :=
  (records.find? (fun r => queryOf r == q)).map (fun r => resolve (targetOf r))

/-- Per-record cleaned output as the spec describes the normalizer: fields
0 and 1 with the marker removed, all later fields untouched. -/
def normalizeFields (r : List Str) : List Str :=
  queryOf r :: targetOf r :: r.drop 2

/-- Modelled from the spec: "strip an internal marker prefix from the
query-id and target-id fields" (spec §4.1) read literally as removing the
marker only when it occurs as a prefix of the field.  Used to compare the
spec's wording with the `str.replace`-based behaviour of the code. -/
def stripMarkerIfLeading (s : Str) : Str :=
  if leadsWith marker s then s.drop marker.length else s

/-- The literal fallback partition label `"cloud"` written for unmapped
sequences (alignOnPang.py:284). -/
def cloudStr : Str := ['c', 'l', 'o', 'u', 'd']

/-- `project_and_write_partition` (alignOnPang.py:268-285), as the list of
rows written to `sequences_partition_projection.tsv`: one row
`(input_seq, family.named_partition)` per entry of the map (dict
insertion order), then one row `(remaining_seq, "cloud")` per input id
not among the map's keys (`seq_set - seqid_to_gene_family.keys()`; the
set is modelled as a duplicate-free list). -/
def project_and_write_partition (seqid_to_gene_family : List (Str × GeneFamily))
    (seq_set : List Str) : List (Str × Str) :=
  seqid_to_gene_family.map (fun p => (p.1, p.2.named_partition)) ++
    (seq_set.filter
      (fun s => (seqid_to_gene_family.lookup s).isNone)).map
      (fun s => (s, cloudStr))

/-- `write_gene_to_gene_family` (alignOnPang.py:288-310), as the list of
rows written to `gene_to_gene_family.tsv`: one row per input id, with the
mapped family's name, or the id itself when there is no hit. -/
def write_gene_to_gene_family (seqid_to_gene_family : List (Str × GeneFamily))
    (seq_set : List Str) : List (Str × Str) :=
  seq_set.map (fun s =>
    match seqid_to_gene_family.lookup s with
    | some fam => (s, fam.name)
    | none => (s, s))

/-- An RGP as consumed by `get_fam_to_rgp`: its name, its member families
(`rgp.families`, in iteration order) and, per border, the families of the
genes returned by `rgp.get_bordering_genes(set_size, multigenics)` (a
read-only accessor of the pangenome, supplied externally; `borders`
records `gene.family` for each border gene, border by border). -/
structure RGPModel (F : Type) where
  name : Str
  families : List F
  borders : List (List F)
deriving DecidableEq, Repr

/-- The sequence of `fam2rgp[fam].append(rgp.name)` events performed by
`get_fam_to_rgp` (alignOnPang.py:313-329), in program order: for each RGP,
one append per member family, then one append per bordering gene's
family. -/
def fam_to_rgp_events {F : Type} (regions : List (RGPModel F)) :
    List (F × Str) :=
  regions.flatMap (fun rgp =>
    rgp.families.map (fun f => (f, rgp.name)) ++
      rgp.borders.flatten.map (fun f => (f, rgp.name)))

/-- `get_fam_to_rgp` (alignOnPang.py:313-329): the `defaultdict(list)` is
represented by the list each family is mapped to, i.e. the values of the
append events keyed by that family, in append order. -/
def get_fam_to_rgp {F : Type} [DecidableEq F] (regions : List (RGPModel F))
    (f : F) : List Str :=
  ((fam_to_rgp_events regions).filter (fun e => e.1 == f)).map Prod.snd

/-- Python `str.strip()` (used as `line.strip()`): remove leading and
trailing whitespace. -/
def pytrim (l : Str) : Str :=
  ((l.dropWhile Char.isWhitespace).reverse.dropWhile Char.isWhitespace).reverse

/-- Python `str.split()` with no argument (used as `line[1:].split()`):
split on whitespace runs, discarding empty fields. -/
def pysplitWs (l : Str) : List Str :=
  (l.splitOnP Char.isWhitespace).filter (fun t => !t.isEmpty)

/-- `dna_expected_char` (alignOnPang.py:216). -/
def dna_expected_char : List Char := ['A', 'T', 'G', 'C', 'N']

/-- Python `set.add` on an insertion-ordered duplicate-free list. -/
def addToSet (s : List Str) (x : Str) : List Str :=
  if x ∈ s then s else s ++ [x]

/-- The line loop of `get_seq_ids` (alignOnPang.py:221-231).  State:
ids seen (`seq_set`), number of header lines seen (`seq_count`) and the
accumulated body text (`first_seq_concat`).  A header line `">"` with no
token after it makes the Python code raise `IndexError`
(`line[1:].split()[0]`); this is modelled by `none`.  At end of input,
`is_nucleotide` holds iff every distinct character of the accumulated
text (`Counter(first_seq_concat)`) belongs to `dna_expected_char`. -/
def get_seq_idsAux :
    List Str → List Str → Nat → Str → Option (List Str × Bool)
  | [], seq_set, _, concat =>
    some (seq_set, concat.dedup.all (fun c => dna_expected_char.contains c))
  | line :: rest, seq_set, seq_count, concat =>
    if leadsWith ['>'] line then
      match pysplitWs (line.drop 1) with
      | [] => none
      | tok :: _ =>
        get_seq_idsAux rest (addToSet seq_set (pytrim tok)) (seq_count + 1)
          concat
    else if seq_count ≤ 20 then
      get_seq_idsAux rest seq_set seq_count (concat ++ pytrim line)
    else
      get_seq_idsAux rest seq_set seq_count concat

/-- `get_seq_ids` (alignOnPang.py:208-231) over the file's lines. -/
def get_seq_ids (lines : List Str) : Option (List Str × Bool) :=
  get_seq_idsAux lines [] 0 []

/-- The text accumulated by `get_seq_ids` starting from `seq_count` seen
headers: the stripped non-header lines read while at most 20 header lines
have been seen.  Stated separately from the monolithic loop so that the
guess `is_nucleotide` can be characterised against it. -/
def bodyConcat : List Str → Nat → Str
  | [], _ => []
  | line :: rest, seq_count =>
    if leadsWith ['>'] line then bodyConcat rest (seq_count + 1)
    else if seq_count ≤ 20 then pytrim line ++ bodyConcat rest seq_count
    else bodyConcat rest seq_count

/-!
## Embedding of `ppanggolin/figures/draw_spot.py`

An element of `gene_lists` is the Python list `[gene_list, borders, rgp]`
(draw_spot.py:612): the genes of the region, and `borders[0]`,
`borders[1]`, the two flanking marker windows.  The trailing `rgp` handle
is only dereferenced after ordering, for drawing, and is never read or
written by the classifier or the orderer, so it is omitted from the
record.  Genes are an abstract type `G`; their family (an abstract type
`F`) is read through an explicit accessor, matching `gene.family`.
-/

/-- One entry of `gene_lists`: `genes` is `gene_lists[i][0]`,
`border1`/`border2` are `gene_lists[i][1][0]` and `gene_lists[i][1][1]`. -/
structure Region (G : Type) where
  genes : List G
  border1 : List G
  border2 : List G
deriving DecidableEq, Repr

/-- Placeholder region used for out-of-range indexing; real runs only ever
index within bounds. -/
def defaultRegion {G : Type} : Region G := ⟨[], [], []⟩

/-- The body of the inner `for unclassIndex in list(to_classify)` loop of
`line_order_gene_lists` (draw_spot.py:130-149), for a fixed classified
region whose border family lists are `b1`, `b2`.  `cb` is the border
equivalence collaborator `comp_border(·, ·, overlapping_match, set_size,
exact_match)` (`ppanggolin.RGP.spot.comp_border`, supplied externally;
the tolerance parameters are folded into `cb`).  The state is
(current `gene_lists`, `to_classify`, `new_classify`). -/
def tryClassify {G F : Type} (cb : List F → List F → Bool) (fam : G → F)
    (b1 b2 : List F) (st : List (Region G) × List Nat × List Nat)
    (ui : Nat) : List (Region G) × List Nat × List Nat :=
  let u := st.1.getD ui defaultRegion
  let u1 := u.border1.map fam
  let u2 := u.border2.map fam
  if cb b1 u1 && cb b2 u2 then
    (st.1, st.2.1.erase ui, st.2.2 ++ [ui])
  else if cb b2 u1 && cb b1 u2 then
    (st.1.set ui ⟨u.genes.reverse, u.border2, u.border1⟩,
      st.2.1.erase ui, st.2.2 ++ [ui])
  else st

/-- One iteration of the outer `for classIndex in classified` loop
(draw_spot.py:127-149): read the base borders of the classified region
`ci`, then fold the inner loop over a snapshot of the current
`to_classify` (Python's `list(to_classify)`). -/
def onePassInner {G F : Type} (cb : List F → List F → Bool) (fam : G → F)
    (ci : Nat) (st : List (Region G) × List Nat × List Nat) :
    List (Region G) × List Nat × List Nat :=
  let base := st.1.getD ci defaultRegion
  let b1 := base.border1.map fam
  let b2 := base.border2.map fam
  st.2.1.foldl (tryClassify cb fam b1 b2) st

/-- The full classifier state of one run of `line_order_gene_lists`. -/
structure ClassifyState (G : Type) where
  regions : List (Region G)
  classified : List Nat
  toClassify : List Nat
deriving DecidableEq, Repr

/-- One full pass of the `while len(to_classify) != 0` loop
(draw_spot.py:126-152): run the outer loop over the classified indices,
then `classified |= new_classify` (the newly classified indices come from
`to_classify`, which is disjoint from `classified`, so union is an
append) and reset `new_classify`. -/
def onePass {G F : Type} (cb : List F → List F → Bool) (fam : G → F)
    (s : ClassifyState G) : ClassifyState G :=
  let t := s.classified.foldl (fun st ci => onePassInner cb fam ci st)
    (s.regions, s.toClassify, [])
  ⟨t.1, s.classified ++ t.2.2, t.2.1⟩

/-- The initial classifier state (draw_spot.py:121-124):
`classified = {0}`, `to_classify = set(range(1, len(gene_lists)))`.
Python iterates small-integer sets in ascending order; the sets are
modelled as ascending duplicate-free lists. -/
def initState {G : Type} (gene_lists : List (Region G)) : ClassifyState G :=
  ⟨gene_lists, [0], List.range' 1 (gene_lists.length - 1)⟩

/-- The classifier state after `n` passes of the `while` loop of
`line_order_gene_lists`.  The Python loop terminates exactly when some
`n` has `(classifyIter … n).toClassify = []`; it has no other exit. -/
def classifyIter {G F : Type} (cb : List F → List F → Bool) (fam : G → F)
    (gene_lists : List (Region G)) : Nat → ClassifyState G
  | 0 => initState gene_lists
  | n + 1 => onePass cb fam (classifyIter cb fam gene_lists n)

/-- Member-family set of a region's gene list, as `row_order_gene_lists`
collects it (draw_spot.py:89-92): the families of the genes that have one
(`hasattr(gene, "family")` — RNA genes have none, so the accessor is
`Option`-valued here), first occurrence order, deduplicated (`set.add`). -/
def famsOf {G F : Type} [DecidableEq F] (famOpt : G → Option F)
    (r : Region G) : List F :=
  (r.genes.filterMap famOpt).dedup

/-- The keys of `fam_dict` in insertion order (draw_spot.py:89-92): every
family of every region's gene list, first occurrence first.  These are
the rows of the presence matrix `mat_p_a`. -/
def famList {G F : Type} [DecidableEq F] (famOpt : G → Option F)
    (gene_lists : List (Region G)) : List F :=
  (gene_lists.flatMap (fun r => r.genes.filterMap famOpt)).dedup

/-- Support of column `i` of the presence matrix `mat_p_a`
(draw_spot.py:96-101): the families `f` with `i ∈ fam_dict[f]`, i.e. the
rows holding a 1 in column `i`. -/
def colFams {G F : Type} [DecidableEq F] (famOpt : G → Option F)
    (gene_lists : List (Region G)) (i : Nat) : List F :=
  (famList famOpt gene_lists).filter
    (fun f => (famsOf famOpt (gene_lists.getD i defaultRegion)).contains f)

/-- Modelled from the spec: `jaccard_similarities(mat_p_a, 0)`
(`ppanggolin.utils`, not under `src/`) — "Compute pairwise Jaccard
distance between region columns (distance = 1 − |intersection|/|union| of
family sets)" (spec §4.7), so the similarity of columns `i`, `j` is
|intersection|/|union| of their supports; a pair of disjoint supports
(including empty ones, which have no stored entry in the sparse product)
has similarity 0, which `0 / 0 = 0` in `ℚ` renders without a guard. -/
def simEntry {G F : Type} [DecidableEq F] (famOpt : G → Option F)
    (gene_lists : List (Region G)) (i j : Nat) : ℚ :=
  ((colFams famOpt gene_lists i ∩ colFams famOpt gene_lists j).length : ℚ) /
    ((colFams famOpt gene_lists i ∪ colFams famOpt gene_lists j).length : ℚ)

/-- Entry `(i, j)` of the dense matrix `1 - jaccard_similarities(mat_p_a,
0).todense()` passed to `pdist` (draw_spot.py:102). -/
def distEntry {G F : Type} [DecidableEq F] (famOpt : G → Option F)
    (gene_lists : List (Region G)) (i j : Nat) : ℚ :=
  1 - simEntry famOpt gene_lists i j

/-- The square of entry `(i, j)` of `pdist(…)` (draw_spot.py:102):
`scipy.spatial.distance.pdist` treats its matrix argument as one
observation per row and returns the **Euclidean distance between rows**
`i` and `j`, `sqrt (Σ_k (D i k − D j k)²)`.  The square root is kept
implicit (squares live in `ℚ` and determine the nonnegative distance
uniquely), so the condensed vector is represented by its squared
entries. -/
def pdistSqEntry {G F : Type} [DecidableEq F] (famOpt : G → Option F)
    (gene_lists : List (Region G)) (i j : Nat) : ℚ :=
  ((List.range gene_lists.length).map
    (fun k => (distEntry famOpt gene_lists i k - distEntry famOpt gene_lists j k) ^ 2)).sum

/-- The condensed dissimilarity vector handed to
`linkage(dist, 'single')`, in `pdist`'s pair order (`i < j`, row major),
represented by squared entries. -/
def condensedSq {G F : Type} [DecidableEq F] (famOpt : G → Option F)
    (gene_lists : List (Region G)) : List ℚ :=
  (List.range gene_lists.length).flatMap (fun i =>
    ((List.range gene_lists.length).filter (fun j => i < j)).map
      (fun j => pdistSqEntry famOpt gene_lists i j))

/-- `row_order_gene_lists` (draw_spot.py:73-109).  `leafOrder` is the
external scipy collaborator `dendrogram(linkage(·, 'single'),
no_plot=True)["leaves"]`, abstracted as a function of the condensed
dissimilarity vector (passed here by its squared entries; the square root
is strictly monotone, so no information is lost); scipy documents the
leaf list to be a permutation of `range(n)`.  A single-region input is
returned unchanged (draw_spot.py:83-84); otherwise the region list is
reindexed by the dendrogram's leaf order (draw_spot.py:107). -/
def row_order_gene_lists {G F : Type} [DecidableEq F] (famOpt : G → Option F)
    (leafOrder : List ℚ → List Nat) (gene_lists : List (Region G)) :
    List (Region G) :=
  if gene_lists.length = 1 then gene_lists
  else (leafOrder (condensedSq famOpt gene_lists)).map
    (fun i => gene_lists.getD i defaultRegion)

/-- The Jaccard distance between two family sets, as the spec words it:
`1 − |intersection|/|union|` (spec §4.7, glossary).  Family sets are
duplicate-free lists; stated from the spec, to be compared with the
dissimilarity the code feeds to the clustering. -/
def jaccardDistSets {F : Type} [DecidableEq F] (A B : List F) : ℚ :=
  1 - ((A ∩ B).length : ℚ) / ((A ∪ B).length : ℚ)

/-- Invariant of a classifier state: the unclassified index set is
duplicate-free and disjoint from the classified index set (they model two
disjoint Python sets). -/
def ClassInv {G : Type} (s : ClassifyState G) : Prop :=
  s.toClassify.Nodup ∧ ∀ i ∈ s.classified, i ∉ s.toClassify

/-- Invariant of the intermediate triple `(regions, to_classify,
new_classify)` during one pass started from state `s`: `to_classify` is
duplicate-free and only shrinks within the original `s.toClassify`,
`new_classify` collects indices taken out of it, and regions at indices
outside the original `s.toClassify` are never mutated. -/
def MidInv {G : Type} (s : ClassifyState G)
    (t : List (Region G) × List Nat × List Nat) : Prop :=
  t.2.1.Nodup ∧
  (∀ j ∈ t.2.1, j ∈ s.toClassify) ∧
  (∀ j ∈ t.2.2, j ∈ s.toClassify ∧ j ∉ t.2.1) ∧
  (∀ j, j ∉ s.toClassify → t.1[j]? = s.regions[j]?)

/-! ### Concrete instances used in witnesses and counterexamples -/

/-- A two-family pangenome lookup: gene ids resolve to a `persistent`
family named by the id, family ids to a `shell` family named by the id. -/
def pgEx : Pangenome :=
  ⟨fun t => ⟨t, ['p', 'e', 'r', 's', 'i', 's', 't', 'e', 'n', 't']⟩,
    fun t => ⟨t, ['s', 'h', 'e', 'l', 'l']⟩⟩

/-- Two alignment records for the same query `q` with different targets
and different trailing score fields. -/
def recsEx : List (List Str) :=
  [[['q'], ['t'], ['9']], [['q'], ['u'], ['1']]]

/-- A record whose query-id field contains the marker in the middle
rather than as a prefix. -/
def recMidMarker : List Str := [['a', '_'] ++ marker ++ ['b'], ['t'], ['s']]

/-- A one-entry sequence→family map for the projection witnesses. -/
def mapEx : List (Str × GeneFamily) :=
  [(['q'], ⟨['f', '1'], ['s', 'h', 'e', 'l', 'l']⟩)]

/-- An input id set with one mapped and one unmapped id. -/
def seqSetEx : List Str := [['q'], ['r']]

/-- An RGP whose family `5` is both a member family and (twice) a border
family. -/
def rgpEx : RGPModel Nat := ⟨['r', '1'], [5, 7], [[5], [5, 6]]⟩

/-- A two-line FASTA file: one header, one nucleotide body line. -/
def linesEx : List Str := [['>', 's', ' ', 'd'], ['A', 'C', 'G']]

/-- Border equivalence stub: exact equality of the family lists (a legal
`comp_border` behaviour under the spec §4.5 contract). -/
def cbEq : List Nat → List Nat → Bool := fun a b => a == b

/-- Two regions that share no border family at all: under `cbEq` neither
the straight nor the crossed pairing ever matches, so region 1 can never
be classified. -/
def glsStall : List (Region Nat) := [⟨[0], [10], [11]⟩, ⟨[1], [20], [21]⟩]

/-- Two regions where only the crossed pairing matches: region 1 must be
reversed and have its borders swapped. -/
def glsCross : List (Region Nat) := [⟨[0], [10], [11]⟩, ⟨[1], [11], [10]⟩]

/-- Every gene is its own family. -/
def famOptId : Nat → Option Nat := fun g => some g

/-- Two regions with disjoint one-gene family sets. -/
def glsDisjoint : List (Region Nat) := [⟨[0], [], []⟩, ⟨[1], [], []⟩]

/-- A leaf-order stub that reverses the two leaves (a legal dendrogram
leaf order). -/
def leafRev : List ℚ → List Nat := fun _ => [1, 0]

/-! ## Theorems -/

theorem lookup_append {α β : Type} [BEq α] (l₁ l₂ : List (α × β)) (a : α) :
    (l₁ ++ l₂).lookup a = (l₁.lookup a).or (l₂.lookup a) := by
  induction l₁ with
  | nil => simp
  | cons p rest ih =>
    obtain ⟨k, b⟩ := p
    simp only [List.cons_append, List.lookup_cons]
    cases h : a == k <;> simp [ih]

theorem not_mem_keys_of_lookup_none {α β : Type} [BEq α] [LawfulBEq α]
    {l : List (α × β)} {a : α} (h : l.lookup a = none) :
    a ∉ l.map Prod.fst := by
  induction l with
  | nil => simp
  | cons p rest ih =>
    obtain ⟨k, b⟩ := p
    rw [List.lookup_cons] at h
    cases hak : a == k with
    | true => simp [hak] at h
    | false =>
      simp only [hak] at h
      simp only [List.map_cons, List.mem_cons]
      rintro (rfl | hm)
      · simp at hak
      · exact ih h hm

theorem firstHit_cons (resolve : Str → GeneFamily) (r : List Str)
    (rest : List (List Str)) (q : Str) :
    firstHit resolve (r :: rest) q =
      if queryOf r == q then some (resolve (targetOf r))
      else firstHit resolve rest q := by
  unfold firstHit
  cases h : queryOf r == q <;> simp [List.find?_cons, h]

/-- Full characterisation of the record loop shared by the two mapping
functions: it succeeds on well-formed records, the map's entry for any
query id is its previous entry or else the first-hit resolution over the
remaining stream, map keys stay duplicate-free, and the cleaned output
appends exactly one normalised record per input record, in order. -/
theorem runAlnAux_spec (resolve : Str → GeneFamily) :
    ∀ (records : List (List Str)) (m : List (Str × GeneFamily))
      (out : List (List Str)),
    (∀ r ∈ records, 2 ≤ r.length) →
    ∃ m' out', runAlnAux resolve records (m, out) = some (m', out') ∧
      (∀ q, m'.lookup q = (m.lookup q).or (firstHit resolve records q)) ∧
      ((m.map Prod.fst).Nodup → (m'.map Prod.fst).Nodup) ∧
      out' = out ++ records.map normalizeFields := by
  intro records
  induction records with
  | nil =>
    intro m out _
    exact ⟨m, out, rfl, by simp [firstHit], id, by simp⟩
  | cons r rest ih =>
    intro m out h
    match r, h r (by simp) with
    | f0 :: f1 :: tail, _ =>
      have hq0 : queryOf (f0 :: f1 :: tail) = stripMarker f0 := rfl
      have ht0 : targetOf (f0 :: f1 :: tail) = stripMarker f1 := rfl
      have hrest : ∀ r' ∈ rest, 2 ≤ r'.length := fun r' hr' => h r' (by simp [hr'])
      cases hq : m.lookup (stripMarker f0) with
      | some v =>
        obtain ⟨m', out', hrun, hlook, hnd, hout⟩ :=
          ih m (out ++ [stripMarker f0 :: stripMarker f1 :: tail]) hrest
        refine ⟨m', out', ?_, ?_, hnd, by simp [hout, normalizeFields, hq0, ht0]⟩
        · simpa [runAlnAux, hq] using hrun
        · intro q
          rw [hlook q, firstHit_cons]
          cases hqq : queryOf (f0 :: f1 :: tail) == q with
          | true =>
            have : stripMarker f0 = q := by
              rw [hq0] at hqq; exact eq_of_beq hqq
            rw [← this, hq]
            simp
          | false => simp
      | none =>
        obtain ⟨m', out', hrun, hlook, hnd, hout⟩ :=
          ih (m ++ [(stripMarker f0, resolve (stripMarker f1))])
            (out ++ [stripMarker f0 :: stripMarker f1 :: tail]) hrest
        refine ⟨m', out', ?_, ?_, ?_, by simp [hout, normalizeFields, hq0, ht0]⟩
        · simpa [runAlnAux, hq] using hrun
        · intro q
          rw [hlook q, firstHit_cons, lookup_append]
          cases hqq : queryOf (f0 :: f1 :: tail) == q with
          | true =>
            have hq0q : stripMarker f0 = q := by
              rw [hq0] at hqq; exact eq_of_beq hqq
            rw [← hq0q, hq, ht0]
            simp [List.lookup_cons]
          | false =>
            have hne : (q == stripMarker f0) = false := by
              rw [hq0] at hqq
              cases hqe : q == stripMarker f0
              · rfl
              · have hq0q : q = stripMarker f0 := eq_of_beq hqe
                subst hq0q
                simp at hqq
            simp [List.lookup_cons, hne]
        · intro hmnd
          apply hnd
          rw [List.map_append]
          rw [List.nodup_append]
          refine ⟨hmnd, by simp, ?_⟩
          intro a ha hb
          simp only [List.map_cons, List.map_nil, List.mem_singleton] at hb
          exact not_mem_keys_of_lookup_none (hb ▸ hq) ha

/-- **C1.**  For every alignment record stream and every query id
appearing in it, the map produced by `map_input_gene_to_family_all_aln`
(resp. `map_input_gene_to_family_rep_aln`) assigns each query id exactly
the family resolved from the target id of the first record in stream
order with that query id; later records for the same query id leave the
entry unchanged, independently of trailing score fields (`firstHit` only
reads fields 0 and 1), and the map holds at most one entry per query id
(its keys are duplicate-free). -/
theorem claim_first_hit_wins (pg : Pangenome) (records : List (List Str))
    (h : ∀ r ∈ records, 2 ≤ r.length) :
    (∃ m out, map_input_gene_to_family_all_aln pg records = some (m, out) ∧
      (m.map Prod.fst).Nodup ∧
      ∀ q, m.lookup q = firstHit pg.geneToFamily records q) ∧
    (∃ m out, map_input_gene_to_family_rep_aln pg records = some (m, out) ∧
      (m.map Prod.fst).Nodup ∧
      ∀ q, m.lookup q = firstHit pg.familyById records q) := by
  constructor
  · obtain ⟨m', out', hrun, hlook, hnd, _⟩ :=
      runAlnAux_spec pg.geneToFamily records [] [] h
    exact ⟨m', out', hrun, hnd (by simp), fun q => by simpa using hlook q⟩
  · obtain ⟨m', out', hrun, hlook, hnd, _⟩ :=
      runAlnAux_spec pg.familyById records [] [] h
    exact ⟨m', out', hrun, hnd (by simp), fun q => by simpa using hlook q⟩

theorem claim_first_hit_wins_witness :
    ∃ m out, map_input_gene_to_family_all_aln pgEx recsEx = some (m, out) ∧
      (m.map Prod.fst).Nodup ∧
      ∀ q, m.lookup q = firstHit pgEx.geneToFamily recsEx q :=
  (claim_first_hit_wins pgEx recsEx (by decide)).1

/-- **C6 (amended).**  The normaliser writes exactly one output record
per input record, in the input order, and alters only fields 0 and 1 —
by removing **every occurrence** of the internal marker substring (which
coincides with stripping the marker prefix whenever the marker occurs
only as a prefix) — while all later fields pass through unchanged
(`normalizeFields`). -/
theorem claim_normalizer_frame_amended (pg : Pangenome)
    (records : List (List Str)) (h : ∀ r ∈ records, 2 ≤ r.length) :
    (∃ m out, map_input_gene_to_family_all_aln pg records = some (m, out) ∧
      out = records.map normalizeFields) ∧
    (∃ m out, map_input_gene_to_family_rep_aln pg records = some (m, out) ∧
      out = records.map normalizeFields) := by
  constructor
  · obtain ⟨m', out', hrun, _, _, hout⟩ :=
      runAlnAux_spec pg.geneToFamily records [] [] h
    exact ⟨m', out', hrun, by simpa using hout⟩
  · obtain ⟨m', out', hrun, _, _, hout⟩ :=
      runAlnAux_spec pg.familyById records [] [] h
    exact ⟨m', out', hrun, by simpa using hout⟩

/-- **C6 (counterexample).**  On a record whose query-id field contains
the marker in the middle, the normaliser outputs `"a_b"` for field 0,
which differs from stripping the internal marker **prefix** (the spec's
wording) — prefix-stripping would leave the field unchanged. -/
theorem claim_normalizer_marker_cex :
    ∃ m out,
      map_input_gene_to_family_all_aln pgEx [recMidMarker] = some (m, out) ∧
      out.headD [] = [['a', '_', 'b'], ['t'], ['s']] ∧
      stripMarkerIfLeading (recMidMarker.headD []) =
        ['a', '_'] ++ marker ++ ['b'] ∧
      (['a', '_', 'b'] : Str) ≠ ['a', '_'] ++ marker ++ ['b'] := by
  exact ⟨_, _, rfl, by decide, by decide, by decide⟩

theorem claim_normalizer_frame_amended_witness :
    ∃ m out, map_input_gene_to_family_all_aln pgEx recsEx = some (m, out) ∧
      out = recsEx.map normalizeFields :=
  (claim_normalizer_frame_amended pgEx recsEx (by decide)).1

theorem mem_keys_iff_lookup_isSome {α β : Type} [BEq α] [LawfulBEq α]
    (l : List (α × β)) (a : α) :
    a ∈ l.map Prod.fst ↔ (l.lookup a).isSome := by
  rw [List.lookup_isSome_iff]
  constructor
  · intro h
    obtain ⟨p, hp, hfst⟩ := List.mem_map.1 h
    exact ⟨p, hp, by simp [hfst]⟩
  · rintro ⟨p, hp, hbeq⟩
    exact List.mem_map.2 ⟨p, hp, (eq_of_beq hbeq).symm⟩

/-- **C5.**  For every input query-id set `S` (a duplicate-free list) and
every sequence→family map whose keys are drawn from `S`, the partition
projection and the family projection each emit exactly one row per
element of `S` (their key columns are a permutation of, resp. equal to,
`S`); an unmapped query id is written with partition `cloud` and family
label equal to itself, a mapped one with its family's partition and
name. -/
theorem claim_projection_totality (m : List (Str × GeneFamily))
    (S : List Str) (hS : S.Nodup) (hkeys : (m.map Prod.fst).Nodup)
    (hsub : ∀ k ∈ m.map Prod.fst, k ∈ S) :
    ((project_and_write_partition m S).map Prod.fst).Perm S ∧
    (write_gene_to_gene_family m S).map Prod.fst = S ∧
    (∀ q ∈ S, m.lookup q = none →
      (q, cloudStr) ∈ project_and_write_partition m S ∧
      (q, q) ∈ write_gene_to_gene_family m S) ∧
    (∀ q g, m.lookup q = some g →
      (q, g.named_partition) ∈ project_and_write_partition m S ∧
      (q ∈ S → (q, g.name) ∈ write_gene_to_gene_family m S)) := by
  have hwrite_fst : ∀ s : Str,
      (match m.lookup s with
        | some fam => (s, fam.name)
        | none => (s, s) : Str × Str).1 = s := by
    intro s; cases m.lookup s <;> rfl
  refine ⟨?_, ?_, ?_, ?_⟩
  · have hk : (project_and_write_partition m S).map Prod.fst =
        m.map Prod.fst ++ S.filter (fun s => (m.lookup s).isNone) := by
      rw [project_and_write_partition, List.map_append, List.map_map,
        List.map_map]
      congr 1
      exact (List.map_congr_left (fun a _ => rfl)).trans (List.map_id _)
    rw [hk]
    have hperm1 : (m.map Prod.fst).Perm
        (S.filter (fun s => (m.lookup s).isSome)) := by
      rw [List.perm_ext_iff_of_nodup hkeys (hS.filter _)]
      intro a
      rw [List.mem_filter, mem_keys_iff_lookup_isSome]
      constructor
      · intro ha
        exact ⟨hsub a ((mem_keys_iff_lookup_isSome m a).2 ha), ha⟩
      · exact fun ha => ha.2
    have hnone : (fun s => (m.lookup s).isNone) =
        (fun s => !(m.lookup s).isSome) := by
      funext s; cases m.lookup s <;> rfl
    rw [hnone]
    exact (hperm1.append (List.Perm.refl _)).trans
      (List.filter_append_perm _ S)
  · rw [write_gene_to_gene_family, List.map_map]
    exact (List.map_congr_left (fun s _ => hwrite_fst s)).trans (List.map_id S)
  · intro q hq hnone
    constructor
    · apply List.mem_append_right
      exact List.mem_map.2 ⟨q, List.mem_filter.2 ⟨hq, by simp [hnone]⟩, rfl⟩
    · refine List.mem_map.2 ⟨q, hq, ?_⟩
      simp only [hnone]
  · intro q g hsome
    obtain ⟨l₁, l₂, heq, -⟩ := List.lookup_eq_some_iff.1 hsome
    constructor
    · apply List.mem_append_left
      exact List.mem_map.2 ⟨(q, g), by rw [heq]; simp, rfl⟩
    · intro hqS
      refine List.mem_map.2 ⟨q, hqS, ?_⟩
      simp only [hsome]

theorem claim_projection_totality_witness :
    ((project_and_write_partition mapEx seqSetEx).map Prod.fst).Perm
      seqSetEx :=
  (claim_projection_totality mapEx seqSetEx (by decide) (by decide)
    (by decide)).1

theorem fam_to_rgp_block_countP {F : Type} [DecidableEq F] (f : F)
    (nm : Str) (r : RGPModel F) :
    List.countP (fun e : F × Str => e.2 == nm && e.1 == f)
        (r.families.map (fun x => (x, r.name)) ++
          r.borders.flatten.map (fun x => (x, r.name))) =
      if r.name = nm then
        r.families.count f + r.borders.flatten.count f
      else 0 := by
  rw [List.countP_append, List.countP_map, List.countP_map]
  by_cases hnm : r.name = nm
  · rw [if_pos hnm]
    have htrue : (r.name == nm) = true := by simp [hnm]
    have hcomp : ((fun e : F × Str => e.2 == nm && e.1 == f) ∘
        (fun x : F => (x, r.name))) = (fun x : F => x == f) := by
      funext x
      simp [htrue]
    rw [hcomp]
    rfl
  · rw [if_neg hnm]
    have hfalse : (r.name == nm) = false := by simp [hnm]
    have hcomp : ((fun e : F × Str => e.2 == nm && e.1 == f) ∘
        (fun x : F => (x, r.name))) = (fun _ : F => false) := by
      funext x
      simp [hfalse]
    rw [hcomp, List.countP_false]
    rfl

/-- **C7.**  In the family→RGP index built by `get_fam_to_rgp`, for every
RGP (names being distinct across RGPs) and every family `f`, the number
of times the RGP's name occurs in the list emitted for `f` is exactly
(occurrences of `f` among the RGP's member families) + (occurrences of
`f` among the families of its bordering genes): one append per
occurrence, so member-and-border duplicates are preserved, never
deduplicated. -/
theorem claim_fam_to_rgp_duplicates {F : Type} [DecidableEq F]
    (regions : List (RGPModel F))
    (hnames : (regions.map RGPModel.name).Nodup)
    (rgp : RGPModel F) (hr : rgp ∈ regions) (f : F) :
    (get_fam_to_rgp regions f).count rgp.name =
      rgp.families.count f + rgp.borders.flatten.count f := by
  have hcount : (get_fam_to_rgp regions f).count rgp.name =
      List.countP (fun e : F × Str => e.2 == rgp.name && e.1 == f)
        (fam_to_rgp_events regions) := by
    rw [get_fam_to_rgp, List.count, List.countP_map, List.countP_filter]
    rfl
  rw [hcount]
  clear hcount
  induction regions with
  | nil => simp at hr
  | cons r rest ih =>
    rw [List.map_cons, List.nodup_cons] at hnames
    have hev : fam_to_rgp_events (r :: rest) =
        (r.families.map (fun x => (x, r.name)) ++
          r.borders.flatten.map (fun x => (x, r.name))) ++
          fam_to_rgp_events rest := by
      simp [fam_to_rgp_events]
    rw [hev, List.countP_append, fam_to_rgp_block_countP]
    rcases List.mem_cons.1 hr with rfl | hr'
    · rw [if_pos rfl]
      have hrest : List.countP
          (fun e : F × Str => e.2 == rgp.name && e.1 == f)
          (fam_to_rgp_events rest) = 0 := by
        rw [List.countP_eq_zero]
        intro e he
        simp only [fam_to_rgp_events, List.mem_flatMap] at he
        obtain ⟨r', hr', hel⟩ := he
        have hname : e.2 = r'.name := by
          rcases List.mem_append.1 hel with hm | hm <;>
            · obtain ⟨x, -, rfl⟩ := List.mem_map.1 hm; rfl
        have hne : r'.name ≠ rgp.name := by
          intro hcontra
          exact hnames.1 (hcontra ▸ List.mem_map.2 ⟨r', hr', rfl⟩)
        simp [hname, hne]
      omega
    · have hne : r.name ≠ rgp.name := by
        intro hcontra
        exact hnames.1 (hcontra ▸ List.mem_map.2 ⟨rgp, hr', rfl⟩)
      rw [if_neg hne, ih hnames.2 hr']
      omega

theorem claim_fam_to_rgp_duplicates_witness :
    (get_fam_to_rgp [rgpEx] 5).count rgpEx.name =
      rgpEx.families.count 5 + rgpEx.borders.flatten.count 5 :=
  claim_fam_to_rgp_duplicates [rgpEx] (by decide) rgpEx (by decide) 5

theorem get_seq_idsAux_snd :
    ∀ (lines : List Str) (seq_set : List Str) (cnt : Nat) (concat : Str)
      (s : List Str) (b : Bool),
    get_seq_idsAux lines seq_set cnt concat = some (s, b) →
    b = (concat ++ bodyConcat lines cnt).dedup.all
      (fun c => dna_expected_char.contains c) := by
  intro lines
  induction lines with
  | nil =>
    intro seq_set cnt concat s b h
    simp only [get_seq_idsAux, Option.some.injEq, Prod.mk.injEq] at h
    rw [← h.2, bodyConcat, List.append_nil]
  | cons line rest ih =>
    intro seq_set cnt concat s b h
    rw [get_seq_idsAux] at h
    rw [bodyConcat]
    by_cases hgt : leadsWith ['>'] line = true
    · rw [if_pos hgt] at h
      rw [if_pos hgt]
      cases htok : pysplitWs (line.drop 1) with
      | nil => rw [htok] at h; exact absurd h (by simp)
      | cons tok toks =>
        rw [htok] at h
        exact ih _ _ _ s b h
    · rw [if_neg hgt] at h
      rw [if_neg hgt]
      by_cases hcnt : cnt ≤ 20
      · rw [if_pos hcnt] at h
        rw [if_pos hcnt, ← List.append_assoc]
        exact ih _ _ _ s b h
      · rw [if_neg hcnt] at h
        rw [if_neg hcnt]
        exact ih _ _ _ s b h

/-- **C10.**  `get_seq_ids` guesses `is_nucleotide = true` iff every
character of the accumulated body text (the stripped non-header lines
read while at most 20 header lines had been seen) belongs to
`{A, T, G, C, N}`; in particular, with no accumulated body text (empty
input, or header lines only) the guess is vacuously `true`. -/
theorem claim_seq_type_guess (lines : List Str) (s : List Str) (b : Bool)
    (h : get_seq_ids lines = some (s, b)) :
    (b = true ↔ ∀ c ∈ bodyConcat lines 0, c ∈ dna_expected_char) ∧
    (bodyConcat lines 0 = [] → b = true) := by
  have hb := get_seq_idsAux_snd lines [] 0 [] s b h
  rw [List.nil_append] at hb
  constructor
  · rw [hb, List.all_eq_true]
    constructor
    · intro hall c hc
      have := hall c (List.mem_dedup.2 hc)
      simpa using this
    · intro hall c hc
      simpa using hall c (List.mem_dedup.1 hc)
  · intro hempty
    rw [hb, hempty]
    rfl

theorem claim_seq_type_guess_witness :
    (true = true ↔ ∀ c ∈ bodyConcat linesEx 0, c ∈ dna_expected_char) ∧
    (bodyConcat linesEx 0 = [] → true = true) :=
  claim_seq_type_guess linesEx [['s']] true (by decide)

/-- **C3.**  When the single still-unclassified region `u` fails the
straight border test against the classified region `c` but both crossed
border pairings are equivalent, the pass reverses `u`'s gene list, swaps
its two borders, and marks `u` classified. -/
theorem claim_crossed_pairing_reverses {G F : Type}
    (cb : List F → List F → Bool) (fam : G → F) (regs : List (Region G))
    (c u : Nat)
    (hstraight : (cb ((regs.getD c defaultRegion).border1.map fam)
        ((regs.getD u defaultRegion).border1.map fam) &&
      cb ((regs.getD c defaultRegion).border2.map fam)
        ((regs.getD u defaultRegion).border2.map fam)) = false)
    (hcross : (cb ((regs.getD c defaultRegion).border2.map fam)
        ((regs.getD u defaultRegion).border1.map fam) &&
      cb ((regs.getD c defaultRegion).border1.map fam)
        ((regs.getD u defaultRegion).border2.map fam)) = true) :
    onePass cb fam ⟨regs, [c], [u]⟩ =
      ⟨regs.set u ⟨(regs.getD u defaultRegion).genes.reverse,
          (regs.getD u defaultRegion).border2,
          (regs.getD u defaultRegion).border1⟩, [c, u], []⟩ := by
  simp only [onePass, onePassInner, tryClassify, List.foldl_cons,
    List.foldl_nil]
  rw [hstraight, hcross]
  simp

theorem claim_crossed_pairing_reverses_witness :
    onePass cbEq id ⟨glsCross, [0], [1]⟩ =
      ⟨glsCross.set 1 ⟨(glsCross.getD 1 defaultRegion).genes.reverse,
          (glsCross.getD 1 defaultRegion).border2,
          (glsCross.getD 1 defaultRegion).border1⟩, [0, 1], []⟩ :=
  claim_crossed_pairing_reverses cbEq id glsCross 0 1 (by decide) (by decide)

theorem tryClassify_mid {G F : Type} (cb : List F → List F → Bool)
    (fam : G → F) (b1 b2 : List F) (s : ClassifyState G)
    (t : List (Region G) × List Nat × List Nat) (ui : Nat)
    (ht : MidInv s t) (hui : ui ∈ t.2.1) :
    MidInv s (tryClassify cb fam b1 b2 t ui) ∧
    ∀ j ∈ t.2.1, j ≠ ui → j ∈ (tryClassify cb fam b1 b2 t ui).2.1 := by
  obtain ⟨hnd, hsubC, hnew, hframe⟩ := ht
  have herase : MidInv s (t.1, t.2.1.erase ui, t.2.2 ++ [ui]) := by
    refine ⟨hnd.erase ui, ?_, ?_, hframe⟩
    · exact fun j hj => hsubC j (List.mem_of_mem_erase hj)
    · intro j hj
      rcases List.mem_append.1 hj with hj' | hj'
      · exact ⟨(hnew j hj').1,
          fun hc => (hnew j hj').2 (List.mem_of_mem_erase hc)⟩
      · rw [List.mem_singleton] at hj'
        subst hj'
        exact ⟨hsubC j hui, hnd.not_mem_erase⟩
  have herase2 : ∀ j ∈ t.2.1, j ≠ ui → j ∈ t.2.1.erase ui := by
    intro j hj hne
    exact (List.mem_erase_of_ne hne).2 hj
  unfold tryClassify
  by_cases h1 : (cb b1 ((t.1.getD ui defaultRegion).border1.map fam) &&
      cb b2 ((t.1.getD ui defaultRegion).border2.map fam)) = true
  · rw [if_pos h1]
    exact ⟨herase, herase2⟩
  · rw [if_neg h1]
    by_cases h2 : (cb b2 ((t.1.getD ui defaultRegion).border1.map fam) &&
        cb b1 ((t.1.getD ui defaultRegion).border2.map fam)) = true
    · rw [if_pos h2]
      refine ⟨⟨herase.1, herase.2.1, herase.2.2.1, ?_⟩, herase2⟩
      intro j hj
      have hne : ui ≠ j := fun hc => hj (hc ▸ hsubC ui hui)
      rw [List.getElem?_set_ne hne]
      exact hframe j hj
    · rw [if_neg h2]
      exact ⟨⟨hnd, hsubC, hnew, hframe⟩, fun j hj _ => hj⟩

theorem foldl_tryClassify_mid {G F : Type} (cb : List F → List F → Bool)
    (fam : G → F) (b1 b2 : List F) (s : ClassifyState G) :
    ∀ (snap : List Nat) (t : List (Region G) × List Nat × List Nat),
    MidInv s t → snap.Nodup → (∀ j ∈ snap, j ∈ t.2.1) →
    MidInv s (snap.foldl (tryClassify cb fam b1 b2) t) := by
  intro snap
  induction snap with
  | nil => exact fun t ht _ _ => ht
  | cons ui rest ih =>
    intro t ht hnd hsub
    rw [List.foldl_cons]
    have hui : ui ∈ t.2.1 := hsub ui (List.mem_cons_self ui rest)
    have hstep := tryClassify_mid cb fam b1 b2 s t ui ht hui
    apply ih _ hstep.1 (List.Nodup.of_cons hnd)
    intro j hj
    have hne : j ≠ ui := by
      intro hc
      exact (List.nodup_cons.1 hnd).1 (hc ▸ hj)
    exact hstep.2 j (hsub j (List.mem_cons_of_mem ui hj)) hne

theorem onePassInner_mid {G F : Type} (cb : List F → List F → Bool)
    (fam : G → F) (ci : Nat) (s : ClassifyState G)
    (t : List (Region G) × List Nat × List Nat) (ht : MidInv s t) :
    MidInv s (onePassInner cb fam ci t) := by
  unfold onePassInner
  exact foldl_tryClassify_mid cb fam _ _ s t.2.1 t ht ht.1 (fun j hj => hj)

theorem foldl_onePassInner_mid {G F : Type} (cb : List F → List F → Bool)
    (fam : G → F) (s : ClassifyState G) :
    ∀ (cls : List Nat) (t : List (Region G) × List Nat × List Nat),
    MidInv s t →
    MidInv s (cls.foldl (fun st ci => onePassInner cb fam ci st) t) := by
  intro cls
  induction cls with
  | nil => exact fun t ht => ht
  | cons ci rest ih =>
    intro t ht
    rw [List.foldl_cons]
    exact ih _ (onePassInner_mid cb fam ci s t ht)

theorem onePass_inv {G F : Type} (cb : List F → List F → Bool)
    (fam : G → F) (s : ClassifyState G) (hs : ClassInv s) :
    ClassInv (onePass cb fam s) ∧
    (∀ i ∈ s.classified, i ∈ (onePass cb fam s).classified) ∧
    (∀ i ∈ s.classified,
      (onePass cb fam s).regions[i]? = s.regions[i]?) := by
  have h0 : MidInv s (s.regions, s.toClassify, []) :=
    ⟨hs.1, fun j hj => hj, by simp, fun j _ => rfl⟩
  have hm := foldl_onePassInner_mid cb fam s s.classified _ h0
  obtain ⟨hnd', hsub', hnew', hframe'⟩ := hm
  refine ⟨⟨hnd', ?_⟩, ?_, ?_⟩
  · intro i hi
    rcases List.mem_append.1 hi with hi' | hi'
    · exact fun hc => hs.2 i hi' (hsub' i hc)
    · exact (hnew' i hi').2
  · intro i hi
    exact List.mem_append_left _ hi
  · intro i hi
    exact hframe' i (hs.2 i hi)

theorem classInv_init {G : Type} (gls : List (Region G)) :
    ClassInv (initState gls) := by
  refine ⟨List.nodup_range' 1 (gls.length - 1), ?_⟩
  intro i hi hc
  simp only [initState, List.mem_singleton] at hi
  subst hi
  simp only [initState] at hc
  rw [List.mem_range'] at hc
  obtain ⟨k, -, hk⟩ := hc
  omega

theorem classInv_iter {G F : Type} (cb : List F → List F → Bool)
    (fam : G → F) (gls : List (Region G)) (n : Nat) :
    ClassInv (classifyIter cb fam gls n) := by
  induction n with
  | zero => exact classInv_init gls
  | succ n ih => exact (onePass_inv cb fam _ ih).1

/-- **C9.**  Throughout one run of `line_order_gene_lists`, the
classified index set only grows (an index classified after `n` passes is
still classified after any `m ≥ n` passes), and once a region is
classified it is never mutated again — its gene list and borders stay
exactly as they were when it was classified, so a region's gene list is
reversed at most once (at the moment it moves out of the unclassified
set). -/
theorem claim_classified_monotone {G F : Type}
    (cb : List F → List F → Bool) (fam : G → F) (gls : List (Region G))
    (n m : Nat) (hnm : n ≤ m) (i : Nat)
    (hi : i ∈ (classifyIter cb fam gls n).classified) :
    i ∈ (classifyIter cb fam gls m).classified ∧
    (classifyIter cb fam gls m).regions[i]? =
      (classifyIter cb fam gls n).regions[i]? := by
  induction m, hnm using Nat.le_induction with
  | base => exact ⟨hi, rfl⟩
  | succ m hnm ih =>
    obtain ⟨hmem, hreg⟩ := ih
    have hstep := onePass_inv cb fam (classifyIter cb fam gls m)
      (classInv_iter cb fam gls m)
    exact ⟨hstep.2.1 i hmem, (hstep.2.2 i hmem).trans hreg⟩

theorem claim_classified_monotone_witness :
    0 ∈ (classifyIter cbEq id glsCross 1).classified ∧
    (classifyIter cbEq id glsCross 1).regions[0]? =
      (classifyIter cbEq id glsCross 0).regions[0]? :=
  claim_classified_monotone cbEq id glsCross 0 1 (by decide) 0 (by decide)

theorem stall_fixed (n : Nat) :
    classifyIter cbEq id glsStall n = initState glsStall := by
  induction n with
  | zero => rfl
  | succ n ih =>
    show onePass cbEq id (classifyIter cbEq id glsStall n) = initState glsStall
    rw [ih]
    decide

/-- **C2 (the code, evaluated at the failing input).**  On two regions
whose borders share no family, no pass ever classifies anything: the
state is a fixed point of `onePass` with `to_classify = [1]` forever, so
the `while len(to_classify) != 0` loop of `line_order_gene_lists` never
terminates — there is no stall guard and no reporting of the
unclassifiable region. -/
theorem claim_classifier_stall_loops (n : Nat) :
    (classifyIter cbEq id glsStall n).toClassify ≠ [] := by
  rw [stall_fixed n]
  decide

theorem map_getD_range {α : Type} (l : List α) (d : α) :
    (List.range l.length).map (fun i => l.getD i d) = l := by
  apply List.ext_getElem
  · simp
  · intro i h1 h2
    simp only [List.getElem_map, List.getElem_range,
      List.getD_eq_getElem?_getD, List.getElem?_eq_getElem h2,
      Option.getD_some]

/-- **C8.**  Granted scipy's documented contract that the dendrogram's
leaf list is a permutation of `range(n)`, the list returned by
`row_order_gene_lists` is a permutation of its input (every region
appears exactly once, even one sharing no family with any other — the
dissimilarity input plays no role in this frame property), and a
single-element input is returned unchanged. -/
theorem claim_row_order_permutation {G F : Type} [DecidableEq F]
    (famOpt : G → Option F) (leafOrder : List ℚ → List Nat)
    (gls : List (Region G))
    (hperm : (leafOrder (condensedSq famOpt gls)).Perm
      (List.range gls.length)) :
    (row_order_gene_lists famOpt leafOrder gls).Perm gls ∧
    (gls.length = 1 → row_order_gene_lists famOpt leafOrder gls = gls) := by
  constructor
  · rw [row_order_gene_lists]
    by_cases h1 : gls.length = 1
    · rw [if_pos h1]
    · rw [if_neg h1]
      have hm := hperm.map (fun i => gls.getD i defaultRegion)
      rw [map_getD_range gls defaultRegion] at hm
      exact hm
  · intro h1
    rw [row_order_gene_lists, if_pos h1]

theorem claim_row_order_permutation_witness :
    (row_order_gene_lists famOptId leafRev glsDisjoint).Perm glsDisjoint :=
  (claim_row_order_permutation famOptId leafRev glsDisjoint (by decide)).1

theorem famsOf_sub_famList {G F : Type} [DecidableEq F]
    (famOpt : G → Option F) (gls : List (Region G)) (i : Nat) :
    ∀ f ∈ famsOf famOpt (gls.getD i defaultRegion), f ∈ famList famOpt gls := by
  intro f hf
  by_cases hi : i < gls.length
  · rw [famsOf, List.mem_dedup] at hf
    rw [famList, List.mem_dedup, List.mem_flatMap]
    refine ⟨gls.getD i defaultRegion, ?_, hf⟩
    rw [List.getD_eq_getElem?_getD, List.getElem?_eq_getElem hi,
      Option.getD_some]
    exact List.getElem_mem hi
  · rw [List.getD_eq_getElem?_getD, List.getElem?_eq_none (by omega),
      Option.getD_none] at hf
    simp [famsOf, defaultRegion] at hf

theorem colFams_toFinset {G F : Type} [DecidableEq F]
    (famOpt : G → Option F) (gls : List (Region G)) (i : Nat) :
    (colFams famOpt gls i).toFinset =
      (famsOf famOpt (gls.getD i defaultRegion)).toFinset := by
  ext f
  simp only [List.mem_toFinset, colFams, List.mem_filter]
  constructor
  · intro hf
    have := hf.2
    simpa using this
  · intro hf
    exact ⟨famsOf_sub_famList famOpt gls i f hf, by simpa using hf⟩

theorem inter_length_of_toFinset {F : Type} [DecidableEq F]
    {A A' B B' : List F} (hA : A.Nodup) (hA' : A'.Nodup)
    (hfA : A.toFinset = A'.toFinset) (hfB : B.toFinset = B'.toFinset) :
    (A ∩ B).length = (A' ∩ B').length := by
  rw [← List.toFinset_card_of_nodup (hA.inter B),
    ← List.toFinset_card_of_nodup (hA'.inter B'),
    List.toFinset_inter, List.toFinset_inter, hfA, hfB]

theorem union_length_of_toFinset {F : Type} [DecidableEq F]
    {A A' B B' : List F} (hB : B.Nodup) (hB' : B'.Nodup)
    (hfA : A.toFinset = A'.toFinset) (hfB : B.toFinset = B'.toFinset) :
    (A ∪ B).length = (A' ∪ B').length := by
  rw [← List.toFinset_card_of_nodup (List.Nodup.union A hB),
    ← List.toFinset_card_of_nodup (List.Nodup.union A' hB'),
    List.toFinset_union, List.toFinset_union, hfA, hfB]

theorem distEntry_eq_jaccardDist {G F : Type} [DecidableEq F]
    (famOpt : G → Option F) (gls : List (Region G)) (i k : Nat) :
    distEntry famOpt gls i k =
      jaccardDistSets (famsOf famOpt (gls.getD i defaultRegion))
        (famsOf famOpt (gls.getD k defaultRegion)) := by
  have hci : (colFams famOpt gls i).Nodup :=
    (List.nodup_dedup _).filter _
  have hfi : (famsOf famOpt (gls.getD i defaultRegion)).Nodup :=
    List.nodup_dedup _
  have hck : (colFams famOpt gls k).Nodup :=
    (List.nodup_dedup _).filter _
  have hfk : (famsOf famOpt (gls.getD k defaultRegion)).Nodup :=
    List.nodup_dedup _
  rw [distEntry, simEntry, jaccardDistSets,
    inter_length_of_toFinset hci hfi (colFams_toFinset famOpt gls i)
      (colFams_toFinset famOpt gls k),
    union_length_of_toFinset hck hfk (colFams_toFinset famOpt gls i)
      (colFams_toFinset famOpt gls k)]

/-- **C4 (amended).**  The dissimilarity on which single-linkage
clustering is run is `pdist` of the dense Jaccard-distance matrix, i.e.
for every pair of regions the **Euclidean distance between the two
regions' rows of the Jaccard-distance matrix** (its square is the sum,
over all regions `k`, of squared differences of Jaccard distances to
`k`) — not the Jaccard distance itself; the returned region order is the
leaf order of the dendrogram built on that dissimilarity. -/
theorem claim_linkage_dissimilarity_amended {G F : Type} [DecidableEq F]
    (famOpt : G → Option F) (leafOrder : List ℚ → List Nat)
    (gls : List (Region G)) (h1 : gls.length ≠ 1) :
    (∀ i j, pdistSqEntry famOpt gls i j =
      ((List.range gls.length).map (fun k =>
        (jaccardDistSets (famsOf famOpt (gls.getD i defaultRegion))
            (famsOf famOpt (gls.getD k defaultRegion)) -
          jaccardDistSets (famsOf famOpt (gls.getD j defaultRegion))
            (famsOf famOpt (gls.getD k defaultRegion))) ^ 2)).sum) ∧
    row_order_gene_lists famOpt leafOrder gls =
      (leafOrder (condensedSq famOpt gls)).map
        (fun i => gls.getD i defaultRegion) := by
  constructor
  · intro i j
    rw [pdistSqEntry]
    congr 1
    apply List.map_congr_left
    intro k _
    rw [distEntry_eq_jaccardDist, distEntry_eq_jaccardDist]
  · rw [row_order_gene_lists, if_neg h1]

theorem claim_linkage_dissimilarity_amended_witness :
    row_order_gene_lists famOptId leafRev glsDisjoint =
      (leafRev (condensedSq famOptId glsDisjoint)).map
        (fun i => glsDisjoint.getD i defaultRegion) :=
  (claim_linkage_dissimilarity_amended famOptId leafRev glsDisjoint
    (by decide)).2

/-- **C4 (counterexample).**  For two regions with disjoint singleton
family sets, the squared dissimilarity actually fed to the clustering for
the pair `(0, 1)` is `2` (rows `(0, 1)` and `(1, 0)` of the
Jaccard-distance matrix are at Euclidean distance `√2`), while the
Jaccard distance of the two family sets is `1`: no value whose square is
the fed dissimilarity's square can equal the Jaccard distance, refuting
the claim that the clustering dissimilarity equals the Jaccard
distance. -/
theorem claim_jaccard_dissimilarity_cex :
    pdistSqEntry famOptId glsDisjoint 0 1 = 2 ∧
    jaccardDistSets (famsOf famOptId (glsDisjoint.getD 0 defaultRegion))
      (famsOf famOptId (glsDisjoint.getD 1 defaultRegion)) = 1 ∧
    ¬ ∃ d : ℚ, d ^ 2 = pdistSqEntry famOptId glsDisjoint 0 1 ∧
      d = jaccardDistSets
        (famsOf famOptId (glsDisjoint.getD 0 defaultRegion))
        (famsOf famOptId (glsDisjoint.getD 1 defaultRegion)) := by
  have d00 : distEntry famOptId glsDisjoint 0 0 = 0 := by
    rw [distEntry, simEntry]
    rw [show (colFams famOptId glsDisjoint 0 ∩
        colFams famOptId glsDisjoint 0).length = 1 by decide]
    rw [show (colFams famOptId glsDisjoint 0 ∪
        colFams famOptId glsDisjoint 0).length = 1 by decide]
    norm_num
  have d01 : distEntry famOptId glsDisjoint 0 1 = 1 := by
    rw [distEntry, simEntry]
    rw [show (colFams famOptId glsDisjoint 0 ∩
        colFams famOptId glsDisjoint 1).length = 0 by decide]
    rw [show (colFams famOptId glsDisjoint 0 ∪
        colFams famOptId glsDisjoint 1).length = 2 by decide]
    norm_num
  have d10 : distEntry famOptId glsDisjoint 1 0 = 1 := by
    rw [distEntry, simEntry]
    rw [show (colFams famOptId glsDisjoint 1 ∩
        colFams famOptId glsDisjoint 0).length = 0 by decide]
    rw [show (colFams famOptId glsDisjoint 1 ∪
        colFams famOptId glsDisjoint 0).length = 2 by decide]
    norm_num
  have d11 : distEntry famOptId glsDisjoint 1 1 = 0 := by
    rw [distEntry, simEntry]
    rw [show (colFams famOptId glsDisjoint 1 ∩
        colFams famOptId glsDisjoint 1).length = 1 by decide]
    rw [show (colFams famOptId glsDisjoint 1 ∪
        colFams famOptId glsDisjoint 1).length = 1 by decide]
    norm_num
  have hp : pdistSqEntry famOptId glsDisjoint 0 1 = 2 := by
    rw [pdistSqEntry,
      show List.range glsDisjoint.length = [0, 1] by decide]
    rw [List.map_cons, List.map_cons, List.map_nil, List.sum_cons,
      List.sum_cons, List.sum_nil]
    rw [d00, d01, d10, d11]
    norm_num
  have hj : jaccardDistSets
      (famsOf famOptId (glsDisjoint.getD 0 defaultRegion))
      (famsOf famOptId (glsDisjoint.getD 1 defaultRegion)) = 1 := by
    rw [jaccardDistSets]
    rw [show (famsOf famOptId (glsDisjoint.getD 0 defaultRegion) ∩
        famsOf famOptId (glsDisjoint.getD 1 defaultRegion)).length = 0
      by decide]
    rw [show (famsOf famOptId (glsDisjoint.getD 0 defaultRegion) ∪
        famsOf famOptId (glsDisjoint.getD 1 defaultRegion)).length = 2
      by decide]
    norm_num
  refine ⟨hp, hj, ?_⟩
  rintro ⟨d, hd2, hdj⟩
  rw [hdj, hj] at hd2
  rw [hp] at hd2
  norm_num at hd2

end PPanGGOLiN
